import Mathlib

/-!
# Shallow embedding of the ChakraVisualizer pipeline

This file embeds the spec-relevant parts of the repository:

* `diagnostic_analyzer.py` — per-row processing of the measurement
  table (`DiagnosticReportAnalyzer.extract_diagnostic_data`) and the
  parameter-to-chakra energy mapping
  (`DiagnosticReportAnalyzer.map_to_chakras`);
* `aura_photo.py` — the per-pixel aura renderer `create_aura_only` and
  the photo overlay `overlay_aura_on_photo`;
* `utils.py` — `calculate_chakra_color`;
* `grv_camera.py` — the emulation branch of `GRVCamera.capture_finger`.

Python floats are modelled as exact rationals (`ℚ`); `int(x)` is
truncation toward zero (`pyint`); a Python exception — in particular
`ZeroDivisionError` from `x / 0` — is modelled by `none` in `Option`
(`pydiv`).  Dictionaries whose keys may be absent are modelled with
`Option` fields, reading with the same defaults the code passes to
`dict.get`.
-/

/-- Python `int(x)` on a float: truncation toward zero. -/
def pyint (q : ℚ) : ℤ :=
  if q < 0 then -⌊-q⌋ else ⌊q⌋

/-- Python float division: raises `ZeroDivisionError` (modelled as
`none`) when the divisor is zero. -/
def pydiv (a b : ℚ) : Option ℚ :=
  if b = 0 then none else some (a / b)

/-! ## diagnostic_analyzer.py — extract_diagnostic_data (per row) -/

/-- One entry of the `diagnostic_data` dictionary built by
`extract_diagnostic_data` for a matched table row.  `Option` fields
model dictionary keys that may be absent. -/
structure RowEntry where
  normal_range : ℚ × ℚ
  result : ℚ
  status : Option String
  deviation : Option ℚ
  position : Option ℚ
deriving DecidableEq, Repr

/-- Processing of one matched table row of `extract_diagnostic_data`
after its three numeric fields converted to floats successfully.  The
entry is built key by key exactly as the Python `try` block assigns
them; a division by a zero-width normal range (`norm_range = 0`) raises
`ZeroDivisionError`, which the enclosing `except` absorbs (it only
prints), so the keys assigned up to that point are kept. -/
def processRow (min_norm max_norm result_value : ℚ) : RowEntry :=
  let e1 : RowEntry :=
    { normal_range := (min_norm, max_norm)
      result := result_value
      status := some (if min_norm ≤ result_value ∧ result_value ≤ max_norm
                      then "normal" else "abnormal")
      deviation := none
      position := none }
  let norm_range := max_norm - min_norm
  if result_value < min_norm then
    if norm_range = 0 then e1
    else { e1 with deviation := some (-((min_norm - result_value) / norm_range * 100)) }
  else if max_norm < result_value then
    if norm_range = 0 then e1
    else { e1 with deviation := some ((result_value - max_norm) / norm_range * 100) }
  else
    if norm_range = 0 then e1
    else { e1 with deviation := some 0
                   position := some ((result_value - min_norm) / norm_range * 100) }

theorem processRow_status (mn mx r : ℚ) :
    (processRow mn mx r).status
      = some (if mn ≤ r ∧ r ≤ mx then "normal" else "abnormal") := by
  simp only [processRow]
  split_ifs <;> rfl

/-- C1: for every table row matched by the extraction regex whose
numeric fields convert to floats, the entry's status is "normal" iff
min_norm ≤ result_value ≤ max_norm with both bounds inclusive, and
otherwise it is "abnormal". -/
theorem status_normal_iff_in_range (mn mx r : ℚ) :
    ((processRow mn mx r).status = some "normal" ↔ mn ≤ r ∧ r ≤ mx) ∧
    ((mn ≤ r ∧ r ≤ mx) ∨ (processRow mn mx r).status = some "abnormal") := by
  rw [processRow_status]
  by_cases h : mn ≤ r ∧ r ≤ mx
  · simp [h]
  · simp [h]

/-- C10: for a matched row whose normal-range minimum equals its
maximum, extraction does not raise past the enclosing except, and the
entry still holds the normal_range, result and status keys but lacks
the deviation key. -/
theorem zero_width_range_keeps_keys (mn r : ℚ) :
    (processRow mn mn r).normal_range = (mn, mn) ∧
    (processRow mn mn r).result = r ∧
    (processRow mn mn r).status.isSome = true ∧
    (processRow mn mn r).deviation = none := by
  simp only [processRow, sub_self]
  split_ifs <;> simp

/-! ## diagnostic_analyzer.py — map_to_chakras -/

/-- The seven chakras: the fixed keys of the `chakra_energy`
dictionary. -/
inductive Chakra
  | Root | Sacral | SolarPlexus | Heart | Throat | ThirdEye | Crown
deriving DecidableEq, Repr

/-- The chakra-name strings used as dictionary keys throughout the
code. -/
def Chakra.name : Chakra → String
  | .Root => "Root"
  | .Sacral => "Sacral"
  | .SolarPlexus => "Solar Plexus"
  | .Heart => "Heart"
  | .Throat => "Throat"
  | .ThirdEye => "Third Eye"
  | .Crown => "Crown"

/-- The seven chakras in the order the dictionaries list them. -/
def chakraList : List Chakra :=
  [.Root, .Sacral, .SolarPlexus, .Heart, .Throat, .ThirdEye, .Crown]

/-- `DiagnosticReportAnalyzer.parameter_to_chakra_mapping`: report
parameters mapped to (chakra, influence weight) lists. -/
def parameter_to_chakra_mapping : List (String × List (Chakra × ℚ)) :=
  [("Вязкость крови", [(.Root, 1/2), (.Sacral, 3/10)]),
   ("Общий Холестерин", [(.Root, 2/5), (.Sacral, 3/10)]),
   ("Липиды", [(.Root, 1/2), (.SolarPlexus, 1/5)]),
   ("Сосудистое сопротивление", [(.Heart, 2/5), (.Root, 1/5), (.SolarPlexus, 1/5)]),
   ("Эластичность кровеносных сосудов", [(.Heart, 1/2), (.Throat, 1/5)]),
   ("Потребность миокарда в крови", [(.Heart, 3/5), (.SolarPlexus, 1/5)]),
   ("Объем перфузии крови в миокарде", [(.Heart, 7/10)]),
   ("Объем потребления кислорода миокардом", [(.Heart, 1/2), (.Throat, 3/10)]),
   ("Ударный объем", [(.Heart, 3/5), (.Root, 1/5)]),
   ("Сопротивление выбросу крови из левого желудочка", [(.Heart, 7/10)]),
   ("Эластичность коронарных артерий", [(.Heart, 1/2), (.Root, 1/5)]),
   ("Сила выброса левого желудочка", [(.Heart, 1/2), (.SolarPlexus, 3/10)]),
   ("Перфузионное давление коронарных артерий", [(.Heart, 1/2), (.Crown, 1/5)]),
   ("Эластичность церебральных сосудов", [(.ThirdEye, 1/2), (.Crown, 3/10)]),
   ("Состояние кровоснабжения мозга", [(.ThirdEye, 2/5), (.Crown, 2/5)])]

/-- The (chakra, weight) list of a parameter: the mapping entry when
the parameter is a key of `parameter_to_chakra_mapping`, else nothing
(the Python loop skips such parameters). -/
def weightsFor (param : String) : List (Chakra × ℚ) :=
  (parameter_to_chakra_mapping.lookup param).getD []

/-- The per-parameter energy value computed inside the weight loop of
`map_to_chakras`; it does not depend on the chakra being updated, only
on the parameter's record. -/
def energy_value (data : RowEntry) : ℚ :=
  if data.status = some "normal" then
    let position := (data.position).getD 50
    let energy_factor := 1 - |position - 50| / 50
    70 + energy_factor * 30
  else
    let deviation := |(data.deviation).getD 0|
    let capped_deviation := min deviation 100
    max 0 (100 - capped_deviation)

/-- One parameter's inner loop over its (chakra, weight) pairs:
`chakra_energy[chakra] -= (100 - energy_value) * weight`. -/
def applyWeights (red : ℚ) (ws : List (Chakra × ℚ)) (e : Chakra → ℚ) : Chakra → ℚ :=
  ws.foldl (fun e2 cw => fun c => if c = cw.1 then e2 c - red * cw.2 else e2 c) e

/-- One iteration of the parameter loop of `map_to_chakras`. -/
def applyParam (e : Chakra → ℚ) (pd : String × RowEntry) : Chakra → ℚ :=
  applyWeights (100 - energy_value pd.2) (weightsFor pd.1) e

/-- Total weight with which a weight list touches one chakra. -/
def sumWeightsAt (ws : List (Chakra × ℚ)) (c : Chakra) : ℚ :=
  (ws.map (fun cw => if cw.1 = c then cw.2 else 0)).sum

/-- `chakra_influence_count`: the summed influence weight of all
parameters on one chakra. -/
def influence_count (dd : List (String × RowEntry)) (c : Chakra) : ℚ :=
  (dd.map (fun pd => sumWeightsAt (weightsFor pd.1) c)).sum

/-- `DiagnosticReportAnalyzer.map_to_chakras`: fold every parameter of
the diagnostic data over the initial all-100 energy table, then clamp
each influenced chakra into [0,100]; returned as the association list
with the seven fixed keys in dictionary order. -/
def map_to_chakras (dd : List (String × RowEntry)) : List (String × ℚ) :=
  let chakra_energy := dd.foldl applyParam (fun _ => 100)
  chakraList.map (fun c =>
    (c.name,
     if 0 < influence_count dd c
     then max 0 (min 100 (chakra_energy c))
     else chakra_energy c))

theorem mem_of_lookup_eq_some {l : List (String × List (Chakra × ℚ))} {a : String}
    {ws : List (Chakra × ℚ)} (h : l.lookup a = some ws) : (a, ws) ∈ l := by
  obtain ⟨l₁, l₂, rfl, -⟩ := List.lookup_eq_some_iff.mp h
  simp

theorem mapping_weights_nonneg :
    ∀ pr ∈ parameter_to_chakra_mapping, ∀ cw ∈ pr.2, 0 ≤ cw.2 := by
  with_unfolding_all decide

theorem weightsFor_nonneg (p : String) : ∀ cw ∈ weightsFor p, 0 ≤ cw.2 := by
  intro cw hcw
  unfold weightsFor at hcw
  cases hl : parameter_to_chakra_mapping.lookup p with
  | none => rw [hl] at hcw; simp at hcw
  | some ws =>
    rw [hl] at hcw
    exact mapping_weights_nonneg _ (mem_of_lookup_eq_some hl) cw hcw

theorem sumWeightsAt_nonneg (p : String) (c : Chakra) :
    0 ≤ sumWeightsAt (weightsFor p) c := by
  apply List.sum_nonneg
  intro x hx
  obtain ⟨cw, hcw, rfl⟩ := List.mem_map.mp hx
  split_ifs
  · exact weightsFor_nonneg p cw hcw
  · exact le_refl 0

theorem influence_count_nonneg (dd : List (String × RowEntry)) (c : Chakra) :
    0 ≤ influence_count dd c := by
  apply List.sum_nonneg
  intro x hx
  obtain ⟨pd, _, rfl⟩ := List.mem_map.mp hx
  exact sumWeightsAt_nonneg pd.1 c

theorem sumWeightsAt_cons (cw : Chakra × ℚ) (ws : List (Chakra × ℚ)) (c : Chakra) :
    sumWeightsAt (cw :: ws) c = (if cw.1 = c then cw.2 else 0) + sumWeightsAt ws c := by
  simp [sumWeightsAt]

theorem applyWeights_eval (red : ℚ) :
    ∀ (ws : List (Chakra × ℚ)) (e : Chakra → ℚ) (c : Chakra),
      applyWeights red ws e c = e c - red * sumWeightsAt ws c := by
  intro ws
  induction ws with
  | nil => intro e c; simp [applyWeights, sumWeightsAt]
  | cons cw ws ih =>
    intro e c
    have hstep : applyWeights red (cw :: ws) e
        = applyWeights red ws (fun c2 => if c2 = cw.1 then e c2 - red * cw.2 else e c2) := rfl
    rw [hstep, ih, sumWeightsAt_cons]
    by_cases h : c = cw.1
    · rw [if_pos h, if_pos h.symm]; ring
    · rw [if_neg h, if_neg (fun hc => h hc.symm)]; ring

/-- The total reduction applied to one chakra by the parameter loop of
`map_to_chakras`. -/
def totalReduction (dd : List (String × RowEntry)) (c : Chakra) : ℚ :=
  (dd.map (fun pd => (100 - energy_value pd.2) * sumWeightsAt (weightsFor pd.1) c)).sum

theorem foldl_applyParam_eval (dd : List (String × RowEntry)) :
    ∀ (e : Chakra → ℚ) (c : Chakra),
      dd.foldl applyParam e c = e c - totalReduction dd c := by
  induction dd with
  | nil => intro e c; simp [totalReduction]
  | cons pd dd ih =>
    intro e c
    rw [List.foldl_cons, ih]
    unfold applyParam
    rw [applyWeights_eval]
    simp only [totalReduction, List.map_cons, List.sum_cons]
    ring

theorem energy_value_le_100 (data : RowEntry) : energy_value data ≤ 100 := by
  simp only [energy_value]
  split_ifs
  · have h0 : 0 ≤ |(data.position).getD 50 - 50| / 50 := by positivity
    nlinarith
  · have h1 : 0 ≤ min |(data.deviation).getD 0| 100 :=
      le_min (abs_nonneg _) (by norm_num)
    rw [max_le_iff]
    constructor <;> linarith

theorem totalReduction_nonneg (dd : List (String × RowEntry)) (c : Chakra) :
    0 ≤ totalReduction dd c := by
  apply List.sum_nonneg
  intro x hx
  obtain ⟨pd, _, rfl⟩ := List.mem_map.mp hx
  exact mul_nonneg (by linarith [energy_value_le_100 pd.2]) (sumWeightsAt_nonneg pd.1 c)

theorem totalReduction_eq_zero (dd : List (String × RowEntry)) (c : Chakra)
    (h : influence_count dd c = 0) : totalReduction dd c = 0 := by
  apply List.sum_eq_zero
  intro x hx
  obtain ⟨pd, hpd, rfl⟩ := List.mem_map.mp hx
  have hle : sumWeightsAt (weightsFor pd.1) c ≤ influence_count dd c := by
    apply List.single_le_sum
    · intro y hy
      obtain ⟨pd2, _, rfl⟩ := List.mem_map.mp hy
      exact sumWeightsAt_nonneg pd2.1 c
    · exact List.mem_map.mpr ⟨pd, hpd, rfl⟩
  have hge := sumWeightsAt_nonneg pd.1 c
  have hz : sumWeightsAt (weightsFor pd.1) c = 0 := le_antisymm (h ▸ hle) hge
  rw [hz, mul_zero]

/-- C2: for every diagnostic_data input, map_to_chakras returns exactly
the 7 fixed chakra keys; every value lies in [0,100]; chakras with at
least one influencing parameter are clamped into [0,100] and chakras
with no influencing parameter keep the initial value 100. -/
theorem map_to_chakras_keys_and_range (dd : List (String × RowEntry)) :
    (map_to_chakras dd).map Prod.fst
      = ["Root", "Sacral", "Solar Plexus", "Heart", "Throat", "Third Eye", "Crown"] ∧
    (∀ kv ∈ map_to_chakras dd, 0 ≤ kv.2 ∧ kv.2 ≤ 100) ∧
    (∀ c : Chakra, influence_count dd c = 0 →
      ((c.name, (100 : ℚ)) ∈ map_to_chakras dd)) := by
  refine ⟨rfl, ?_, ?_⟩
  · intro kv hkv
    simp only [map_to_chakras, List.mem_map] at hkv
    obtain ⟨c, _, rfl⟩ := hkv
    dsimp only
    split_ifs with h
    · refine ⟨le_max_left 0 _, ?_⟩
      rw [max_le_iff]
      exact ⟨by norm_num, le_trans (min_le_left 100 _) (le_refl 100)⟩
    · have h0 : influence_count dd c = 0 :=
        le_antisymm (not_lt.mp h) (influence_count_nonneg dd c)
      rw [foldl_applyParam_eval, totalReduction_eq_zero dd c h0]
      norm_num
  · intro c h0
    simp only [map_to_chakras, List.mem_map]
    refine ⟨c, ?_, ?_⟩
    · cases c <;> simp [chakraList]
    · have hnot : ¬ 0 < influence_count dd c := by rw [h0]; exact lt_irrefl 0
      rw [if_neg hnot, foldl_applyParam_eval, totalReduction_eq_zero dd c h0]
      norm_num

theorem map_to_chakras_keys_and_range_attains :
    influence_count [] Chakra.Root = 0 ∧
    ((Chakra.Root.name, (100 : ℚ)) ∈ map_to_chakras []) :=
  ⟨by with_unfolding_all decide,
   (map_to_chakras_keys_and_range []).2.2 Chakra.Root (by with_unfolding_all decide)⟩

/-! ## aura_photo.py — create_aura_only -/

/-- Base chakra colors (RGB) of `create_aura_only`. -/
def chakra_colors : Chakra → ℚ × ℚ × ℚ
  | .Root => (255, 0, 0)
  | .Sacral => (255, 128, 0)
  | .SolarPlexus => (255, 255, 0)
  | .Heart => (0, 255, 0)
  | .Throat => (0, 191, 255)
  | .ThirdEye => (0, 0, 255)
  | .Crown => (128, 0, 128)

/-- The 25% brightness boost factor. -/
def brightness_boost : ℚ := 125/100

/-- Relative vertical positions of the chakras. -/
def chakra_positions : Chakra → ℚ
  | .Root => 85/100
  | .Sacral => 75/100
  | .SolarPlexus => 65/100
  | .Heart => 50/100
  | .Throat => 35/100
  | .ThirdEye => 20/100
  | .Crown => 5/100

/-- `center_x = width // 2`. -/
def center_x (width : ℕ) : ℕ := width / 2

/-- `center_y = int(height * 0.45)`. -/
def center_y (height : ℕ) : ℤ := pyint ((height : ℚ) * (45/100))

/-- The capped base radius of the aura:
`min(edge_distance_x, edge_distance_y, min(width, height) * 0.4)`. -/
def base_radius (width height : ℕ) : ℚ :=
  let br : ℚ := ((min width height : ℕ) : ℚ) * (40/100)
  let edge_distance_x : ℚ :=
    ((min (center_x width) (width - center_x width) : ℕ) : ℚ) * (90/100)
  let edge_distance_y : ℚ :=
    min ((center_y height : ℤ) : ℚ) ((height : ℚ) - ((center_y height : ℤ) : ℚ)) * (90/100)
  min (min edge_distance_x edge_distance_y) br

/-- Per-chakra aura radius: 30% to 100% of the base radius, scaled by
the chakra's energy. -/
def chakra_radius (ev : Chakra → ℚ) (width height : ℕ) (c : Chakra) : ℚ :=
  base_radius width height * (30/100 + (70/100) * ev c / 100)

/-- Silhouette half-width at relative height `rel_y`. -/
def body_width (rel_y : ℚ) : ℚ :=
  if rel_y < 20/100 then 15/100
  else if rel_y < 40/100 then 20/100 + (rel_y - 20/100) * (50/100)
  else if rel_y < 60/100 then 30/100
  else if rel_y < 80/100 then 30/100 - (rel_y - 60/100) * 1
  else 15/100

/-- Distance of pixel (x, y) beyond the silhouette, clamped at 0 inside
the silhouette and scaled back to absolute pixels. -/
def body_dist (width height : ℕ) (x y : ℕ) : Option ℚ := do
  let rel_y ← pydiv (y : ℚ) (height : ℚ)
  let dx ← pydiv ((x : ℚ) - ((center_x width : ℕ) : ℚ)) (width : ℚ)
  let bd0 := |dx| - body_width rel_y
  let bd1 := if bd0 < 0 then 0 else bd0
  pure (bd1 * (width : ℚ))

/-- The weight contribution of one chakra at a pixel.  `none` models a
`ZeroDivisionError`; `some none` means the chakra does not influence
the pixel; `some (some w)` an influence of weight `w` above the 0.01
threshold. -/
def chakraWeightAt (ev : Chakra → ℚ) (width height : ℕ) (bd : ℚ) (y : ℕ)
    (c : Chakra) : Option (Option ℚ) :=
  let chakra_y : ℤ := pyint (chakra_positions c * (height : ℚ))
  let energy_factor := ev c / 100
  if 0 < energy_factor then
    let max_dist_for_chakra := chakra_radius ev width height c
    if bd ≤ max_dist_for_chakra then
      match pydiv |(y : ℚ) - (chakra_y : ℚ)| ((height : ℚ) * (50/100)) with
      | none => none
      | some vertical_angle =>
        let angle_weight := max 0 (1 - vertical_angle)
        match pydiv bd max_dist_for_chakra with
        | none => none
        | some q =>
          let horiz_weight := 1 - q
          let w := (angle_weight * (70/100) + horiz_weight * (30/100)) * energy_factor
          if 1/100 < w then some (some w) else some none
    else some none
  else some none

/-- The `chakra_weights` dictionary accumulated over the seven chakras
(in insertion order), propagating a `ZeroDivisionError` as `none`. -/
def collectWeights (ev : Chakra → ℚ) (width height : ℕ) (bd : ℚ) (y : ℕ) :
    List Chakra → List (Chakra × ℚ) → Option (List (Chakra × ℚ))
  | [], acc => some acc
  | c :: cs, acc =>
    match chakraWeightAt ev width height bd y c with
    | none => none
    | some none => collectWeights ev width height bd y cs acc
    | some (some w) => collectWeights ev width height bd y cs (acc ++ [(c, w)])

/-- `total_distance_weight`: the sum of the accumulated weights. -/
def weightSum (ws : List (Chakra × ℚ)) : ℚ := (ws.map Prod.snd).sum

/-- The normalization step: when the total weight is positive, divide
every weight by it. -/
def normalizeWeights (ws : List (Chakra × ℚ)) : List (Chakra × ℚ) :=
  if 0 < weightSum ws then ws.map (fun cw => (cw.1, cw.2 / weightSum ws)) else ws

/-- The red component accumulated by the color-blend loop. -/
def blendR (ws : List (Chakra × ℚ)) : ℚ :=
  (ws.map (fun cw => (chakra_colors cw.1).1 * cw.2)).sum

/-- The green component accumulated by the color-blend loop. -/
def blendG (ws : List (Chakra × ℚ)) : ℚ :=
  (ws.map (fun cw => (chakra_colors cw.1).2.1 * cw.2)).sum

/-- The blue component accumulated by the color-blend loop. -/
def blendB (ws : List (Chakra × ℚ)) : ℚ :=
  (ws.map (fun cw => (chakra_colors cw.1).2.2 * cw.2)).sum

/-- Python `max` over a nonempty list (with the value the code
substitutes when `chakra_influence` is empty). -/
def maxListQ (l : List ℚ) (dflt : ℚ) : ℚ :=
  match l with
  | [] => dflt
  | h :: t => t.foldl max h

/-- The alpha channel of a written pixel: full 70% opacity inside the
silhouette, otherwise a linear falloff over the maximal active chakra
radius, floored at 0. -/
def alphaCompute (bd : ℚ) (radii : List ℚ) (fallback : ℚ) : Option ℤ :=
  if bd ≤ 0 then some (pyint (255 * (70/100)))
  else
    let max_chakra_radius := maxListQ radii fallback
    match pydiv bd max_chakra_radius with
    | none => none
    | some q =>
      let alpha_factor := 1 - q
      if alpha_factor < 0 then some 0
      else some (pyint (255 * alpha_factor * (70/100)))

/-- The full per-pixel computation of `create_aura_only`: `none` models
an uncaught exception, `some (0,0,0,0)` the untouched `np.zeros` value
when the loop hits `continue`, and `some (r, g, b, a)` a written
pixel. -/
def pixelCompute (ev : Chakra → ℚ) (width height : ℕ) (y x : ℕ) :
    Option (ℤ × ℤ × ℤ × ℤ) := do
  let bd ← body_dist width height x y
  let ws ← collectWeights ev width height bd y chakraList []
  let nws := normalizeWeights ws
  let wsum := weightSum nws
  if 0 < wsum then
    let r0 := pyint (blendR nws / wsum)
    let g0 := pyint (blendG nws / wsum)
    let b0 := pyint (blendB nws / wsum)
    let r := min 255 (pyint ((r0 : ℚ) * brightness_boost))
    let g := min 255 (pyint ((g0 : ℚ) * brightness_boost))
    let b := min 255 (pyint ((b0 : ℚ) * brightness_boost))
    let chakra_influence := nws.map Prod.fst
    let a ← alphaCompute bd (chakra_influence.map (chakra_radius ev width height))
              (base_radius width height)
    pure (r, g, b, a)
  else
    pure (0, 0, 0, 0)

/-- Run an option-valued function over a list, propagating failure (the
first uncaught exception aborts the whole loop). -/
def optionMapList {α β : Type} (f : α → Option β) : List α → Option (List β)
  | [] => some []
  | a :: l =>
    match f a, optionMapList f l with
    | some b, some bs => some (b :: bs)
    | _, _ => none

/-- `create_aura_only`: the height × width RGBA buffer, or `none` when
some pixel raises an uncaught exception. -/
def create_aura_only (ev : Chakra → ℚ) (width height : ℕ) :
    Option (List (List (ℤ × ℤ × ℤ × ℤ))) :=
  optionMapList
    (fun y => optionMapList (fun x => pixelCompute ev width height y x) (List.range width))
    (List.range height)

theorem pyint_nonneg {q : ℚ} (h : 0 ≤ q) : 0 ≤ pyint q := by
  unfold pyint
  rw [if_neg (not_lt.mpr h)]
  exact Int.floor_nonneg.mpr h

theorem pyint_mono {a b : ℚ} (ha : 0 ≤ a) (hab : a ≤ b) : pyint a ≤ pyint b := by
  unfold pyint
  rw [if_neg (not_lt.mpr ha), if_neg (not_lt.mpr (le_trans ha hab))]
  exact Int.floor_le_floor hab

theorem pyint_le_of_le {q : ℚ} {n : ℤ} (h0 : 0 ≤ q) (h : q ≤ (n : ℚ)) : pyint q ≤ n := by
  unfold pyint
  rw [if_neg (not_lt.mpr h0)]
  exact (Int.floor_le_floor h).trans_eq (Int.floor_intCast n)

theorem pydiv_eq_some {a b q : ℚ} (h : pydiv a b = some q) : b ≠ 0 ∧ q = a / b := by
  unfold pydiv at h
  split_ifs at h with hb
  injection h with h
  exact ⟨hb, h.symm⟩

theorem body_dist_nonneg {w h x y : ℕ} {bd : ℚ}
    (hbd : body_dist w h x y = some bd) : 0 ≤ bd := by
  unfold body_dist at hbd
  cases h1 : pydiv (y : ℚ) (h : ℚ) with
  | none => rw [h1] at hbd; simp at hbd
  | some rel_y =>
    rw [h1] at hbd
    cases h2 : pydiv ((x : ℚ) - ((center_x w : ℕ) : ℚ)) (w : ℚ) with
    | none => rw [h2] at hbd; simp at hbd
    | some dx =>
      rw [h2] at hbd
      simp only [Option.bind_eq_bind, Option.some_bind, Option.pure_def,
        Option.some.injEq] at hbd
      subst hbd
      apply mul_nonneg _ (by positivity)
      split_ifs with hneg
      · exact le_refl 0
      · exact not_lt.mp hneg

theorem base_radius_nonneg (w h : ℕ) : 0 ≤ base_radius w h := by
  unfold base_radius
  have hcy0 : (0 : ℚ) ≤ ((center_y h : ℤ) : ℚ) := by
    unfold center_y
    exact_mod_cast pyint_nonneg (by positivity)
  have hcyh : ((center_y h : ℤ) : ℚ) ≤ (h : ℚ) := by
    unfold center_y pyint
    rw [if_neg (not_lt.mpr (by positivity))]
    calc ((⌊(h : ℚ) * (45/100)⌋ : ℤ) : ℚ) ≤ (h : ℚ) * (45/100) := Int.floor_le _
    _ ≤ (h : ℚ) := by nlinarith [Nat.cast_nonneg (α := ℚ) h]
  refine le_min (le_min (by positivity) ?_) (by positivity)
  have : (0 : ℚ) ≤ min ((center_y h : ℤ) : ℚ) ((h : ℚ) - ((center_y h : ℤ) : ℚ)) :=
    le_min hcy0 (by linarith)
  positivity

theorem weightSum_cons (p : Chakra × ℚ) (ws : List (Chakra × ℚ)) :
    weightSum (p :: ws) = p.2 + weightSum ws := by
  simp [weightSum]

theorem weightSum_nonneg {ws : List (Chakra × ℚ)} (h : ∀ p ∈ ws, 0 ≤ p.2) :
    0 ≤ weightSum ws := by
  apply List.sum_nonneg
  intro x hx
  obtain ⟨p, hp, rfl⟩ := List.mem_map.mp hx
  exact h p hp

theorem blendSum_bounds (f : Chakra → ℚ) (hf : ∀ c, 0 ≤ f c ∧ f c ≤ 255) :
    ∀ ws : List (Chakra × ℚ), (∀ p ∈ ws, 0 ≤ p.2) →
      0 ≤ (ws.map (fun cw => f cw.1 * cw.2)).sum ∧
      (ws.map (fun cw => f cw.1 * cw.2)).sum ≤ 255 * weightSum ws := by
  intro ws
  induction ws with
  | nil => intro _; simp [weightSum]
  | cons p ws ih =>
    intro hpos
    have hih := ih (fun q hq => hpos q (List.mem_cons_of_mem _ hq))
    have hp := hpos p (List.mem_cons_self p ws)
    rw [weightSum_cons]
    simp only [List.map_cons, List.sum_cons]
    constructor
    · have := mul_nonneg (hf p.1).1 hp
      linarith [hih.1]
    · have h1 : f p.1 * p.2 ≤ 255 * p.2 := mul_le_mul_of_nonneg_right (hf p.1).2 hp
      have := hih.2
      linarith

theorem chakra_colors_bounds (c : Chakra) :
    (0 ≤ (chakra_colors c).1 ∧ (chakra_colors c).1 ≤ 255) ∧
    (0 ≤ (chakra_colors c).2.1 ∧ (chakra_colors c).2.1 ≤ 255) ∧
    (0 ≤ (chakra_colors c).2.2 ∧ (chakra_colors c).2.2 ≤ 255) := by
  cases c <;> norm_num [chakra_colors]

theorem normalizeWeights_pos {ws : List (Chakra × ℚ)} (h : ∀ p ∈ ws, 0 < p.2) :
    ∀ p ∈ normalizeWeights ws, 0 < p.2 := by
  intro p hp
  unfold normalizeWeights at hp
  split_ifs at hp with hs
  · obtain ⟨q, hq, rfl⟩ := List.mem_map.mp hp
    exact div_pos (h q hq) hs
  · exact h p hp

theorem normalizeWeights_keys {ws : List (Chakra × ℚ)} {p : Chakra × ℚ}
    (hp : p ∈ normalizeWeights ws) : ∃ q ∈ ws, p.1 = q.1 := by
  unfold normalizeWeights at hp
  split_ifs at hp with hs
  · obtain ⟨q, hq, rfl⟩ := List.mem_map.mp hp
    exact ⟨q, hq, rfl⟩
  · exact ⟨p, hp, rfl⟩

theorem chakraWeightAt_some {ev : Chakra → ℚ} {w h : ℕ} {bd : ℚ} {y : ℕ} {c : Chakra}
    (hbd : 0 ≤ bd) {wgt : ℚ}
    (hc : chakraWeightAt ev w h bd y c = some (some wgt)) :
    0 < wgt ∧ 0 < chakra_radius ev w h c ∧ bd ≤ chakra_radius ev w h c := by
  unfold chakraWeightAt at hc
  dsimp only at hc
  split_ifs at hc with h1 h2
  · cases hv : pydiv |(y : ℚ) - ((pyint (chakra_positions c * (h : ℚ))) : ℚ)|
        ((h : ℚ) * (50/100)) with
    | none => rw [hv] at hc; simp at hc
    | some vertical_angle =>
      rw [hv] at hc
      dsimp only at hc
      cases hq : pydiv bd (chakra_radius ev w h c) with
      | none => rw [hq] at hc; simp at hc
      | some q =>
        rw [hq] at hc
        obtain ⟨hm0, rfl⟩ := pydiv_eq_some hq
        dsimp only at hc
        split_ifs at hc with h3
        · injection hc with hc
          injection hc with hc
          subst hc
          refine ⟨by linarith, ?_, h2⟩
          exact lt_of_le_of_ne (le_trans hbd h2) (Ne.symm hm0)
        · simp at hc
  · simp at hc
  · simp at hc

theorem collectWeights_invariant (ev : Chakra → ℚ) (w h : ℕ) (bd : ℚ) (y : ℕ)
    (hbd : 0 ≤ bd) :
    ∀ (cs : List Chakra) (acc ws : List (Chakra × ℚ)),
      collectWeights ev w h bd y cs acc = some ws →
      ∀ p ∈ ws, p ∈ acc ∨
        (0 < p.2 ∧ 0 < chakra_radius ev w h p.1 ∧ bd ≤ chakra_radius ev w h p.1) := by
  intro cs
  induction cs with
  | nil =>
    intro acc ws hws p hp
    rw [collectWeights] at hws
    injection hws with hws
    subst hws
    exact Or.inl hp
  | cons c cs ih =>
    intro acc ws hws p hp
    rw [collectWeights] at hws
    cases hcw : chakraWeightAt ev w h bd y c with
    | none => rw [hcw] at hws; exact absurd hws (by simp)
    | some o =>
      cases o with
      | none => rw [hcw] at hws; exact ih acc ws hws p hp
      | some wgt =>
        rw [hcw] at hws
        rcases ih _ ws hws p hp with hmem | hgood
        · rcases List.mem_append.mp hmem with hacc | hnew
          · exact Or.inl hacc
          · right
            have hp2 : p = (c, wgt) := by simpa using hnew
            subst hp2
            exact chakraWeightAt_some hbd hcw
        · exact Or.inr hgood

theorem collectWeights_pos {ev : Chakra → ℚ} {w h : ℕ} {bd : ℚ} {y : ℕ}
    {ws : List (Chakra × ℚ)} (hbd : 0 ≤ bd)
    (hws : collectWeights ev w h bd y chakraList [] = some ws) :
    ∀ p ∈ ws, 0 < p.2 ∧ 0 < chakra_radius ev w h p.1 ∧ bd ≤ chakra_radius ev w h p.1 := by
  intro p hp
  rcases collectWeights_invariant ev w h bd y hbd chakraList [] ws hws p hp with hmem | hgood
  · exact absurd hmem (List.not_mem_nil p)
  · exact hgood

theorem le_foldl_max (t : List ℚ) : ∀ x : ℚ, x ≤ t.foldl max x := by
  induction t with
  | nil => intro x; exact le_refl x
  | cons a t ih => intro x; exact le_trans (le_max_left x a) (ih (max x a))

theorem maxListQ_nonneg {l : List ℚ} {dflt : ℚ} (hd : 0 ≤ dflt)
    (hl : ∀ r ∈ l, 0 < r) : 0 ≤ maxListQ l dflt := by
  cases l with
  | nil => exact hd
  | cons r t =>
    exact le_trans (le_of_lt (hl r (List.mem_cons_self r t))) (le_foldl_max t r)

theorem alphaCompute_inside (bd : ℚ) (radii : List ℚ) (fallback : ℚ) (h : bd ≤ 0) :
    alphaCompute bd radii fallback = some (pyint (255 * (70/100))) := by
  unfold alphaCompute
  rw [if_pos h]

theorem alphaCompute_bounds {bd : ℚ} {radii : List ℚ} {fallback : ℚ} {a : ℤ}
    (hbd : 0 ≤ bd) (hfb : 0 ≤ fallback) (hr : ∀ r ∈ radii, 0 < r)
    (h : alphaCompute bd radii fallback = some a) :
    0 ≤ a ∧ a ≤ pyint (255 * (70/100)) := by
  unfold alphaCompute at h
  dsimp only at h
  split_ifs at h with h0
  · injection h with h
    subst h
    exact ⟨pyint_nonneg (by norm_num), le_refl _⟩
  · cases hq : pydiv bd (maxListQ radii fallback) with
    | none => rw [hq] at h; simp at h
    | some q =>
      rw [hq] at h
      obtain ⟨hm0, rfl⟩ := pydiv_eq_some hq
      dsimp only at h
      have hmax0 : 0 ≤ maxListQ radii fallback := maxListQ_nonneg hfb hr
      have hmaxpos : 0 < maxListQ radii fallback := lt_of_le_of_ne hmax0 (Ne.symm hm0)
      have hq0 : 0 ≤ bd / maxListQ radii fallback := div_nonneg hbd (le_of_lt hmaxpos)
      split_ifs at h with hneg
      · injection h with h
        subst h
        exact ⟨le_refl 0, pyint_nonneg (by norm_num)⟩
      · injection h with h
        subst h
        have hf0 : (0 : ℚ) ≤ 1 - bd / maxListQ radii fallback := not_lt.mp hneg
        have hf1 : 1 - bd / maxListQ radii fallback ≤ 1 := by linarith
        constructor
        · exact pyint_nonneg (by nlinarith)
        · exact pyint_mono (by nlinarith) (by nlinarith)

theorem alphaCompute_antitone {radii : List ℚ} {fallback : ℚ}
    (hfb : 0 ≤ fallback) (hr : ∀ r ∈ radii, 0 < r)
    {d1 d2 : ℚ} (h0 : 0 ≤ d1) (h12 : d1 ≤ d2) {a1 a2 : ℤ}
    (h1 : alphaCompute d1 radii fallback = some a1)
    (h2 : alphaCompute d2 radii fallback = some a2) :
    a2 ≤ a1 := by
  by_cases hd1 : d1 ≤ 0
  · rw [alphaCompute_inside _ _ _ hd1] at h1
    injection h1 with h1
    subst h1
    exact (alphaCompute_bounds (le_trans h0 h12) hfb hr h2).2
  · push_neg at hd1
    have hd2 : ¬ d2 ≤ 0 := by linarith
    unfold alphaCompute at h1 h2
    dsimp only at h1 h2
    rw [if_neg (not_le.mpr hd1)] at h1
    rw [if_neg hd2] at h2
    cases hq1 : pydiv d1 (maxListQ radii fallback) with
    | none => rw [hq1] at h1; simp at h1
    | some q1 =>
      rw [hq1] at h1
      cases hq2 : pydiv d2 (maxListQ radii fallback) with
      | none => rw [hq2] at h2; simp at h2
      | some q2 =>
        rw [hq2] at h2
        obtain ⟨hm0, rfl⟩ := pydiv_eq_some hq1
        obtain ⟨-, rfl⟩ := pydiv_eq_some hq2
        dsimp only at h1 h2
        have hmax0 : 0 ≤ maxListQ radii fallback := maxListQ_nonneg hfb hr
        have hmaxpos : 0 < maxListQ radii fallback := lt_of_le_of_ne hmax0 (Ne.symm hm0)
        have hqle : d1 / maxListQ radii fallback ≤ d2 / maxListQ radii fallback := by
          gcongr
        have hq10 : 0 ≤ d1 / maxListQ radii fallback := div_nonneg h0 hmax0
        split_ifs at h1 h2 with hn1 hn2 hn3
        · injection h1 with h1; injection h2 with h2; subst h1; subst h2
          exact le_refl 0
        · exact absurd hn1 (by linarith)
        · injection h1 with h1; injection h2 with h2; subst h1; subst h2
          exact pyint_nonneg (by nlinarith)
        · injection h1 with h1; injection h2 with h2; subst h1; subst h2
          have hf10 : (0 : ℚ) ≤ 1 - d1 / maxListQ radii fallback := not_lt.mp hn1
          have hf20 : (0 : ℚ) ≤ 1 - d2 / maxListQ radii fallback := not_lt.mp hn3
          exact pyint_mono (by nlinarith) (by nlinarith)

theorem pixelCompute_bounds {ev : Chakra → ℚ} {w h y x : ℕ} {p : ℤ × ℤ × ℤ × ℤ}
    (hp : pixelCompute ev w h y x = some p) :
    (0 ≤ p.1 ∧ p.1 ≤ 255) ∧ (0 ≤ p.2.1 ∧ p.2.1 ≤ 255) ∧
    (0 ≤ p.2.2.1 ∧ p.2.2.1 ≤ 255) ∧ (0 ≤ p.2.2.2 ∧ p.2.2.2 ≤ 255) := by
  unfold pixelCompute at hp
  simp only [Option.bind_eq_bind] at hp
  obtain ⟨bd, hbd, hp⟩ := Option.bind_eq_some.mp hp
  obtain ⟨ws, hws, hp⟩ := Option.bind_eq_some.mp hp
  have hbd0 := body_dist_nonneg hbd
  have hwpos : ∀ q ∈ ws, 0 < q.2 := fun q hq => (collectWeights_pos hbd0 hws q hq).1
  have hnpos : ∀ q ∈ normalizeWeights ws, 0 < q.2 := normalizeWeights_pos hwpos
  have hnn : ∀ q ∈ normalizeWeights ws, 0 ≤ q.2 := fun q hq => le_of_lt (hnpos q hq)
  split_ifs at hp with hsum
  · obtain ⟨a, ha, hp⟩ := Option.bind_eq_some.mp hp
    injection hp with hp
    subst hp
    have hradii : ∀ r ∈ (List.map Prod.fst (normalizeWeights ws)).map (chakra_radius ev w h),
        0 < r := by
      intro r hr
      obtain ⟨c, hc, rfl⟩ := List.mem_map.mp hr
      obtain ⟨q, hq, rfl⟩ := List.mem_map.mp hc
      obtain ⟨q2, hq2, hkey⟩ := normalizeWeights_keys hq
      rw [hkey]
      exact (collectWeights_pos hbd0 hws q2 hq2).2.1
    have halpha := alphaCompute_bounds hbd0 (base_radius_nonneg w h) hradii ha
    have hcap : pyint (255 * (70/100 : ℚ)) ≤ 255 := pyint_le_of_le (by norm_num) (by norm_num)
    have hcolor : ∀ f : Chakra → ℚ, (∀ c, 0 ≤ f c ∧ f c ≤ 255) →
        0 ≤ min 255 (pyint
          ((pyint (((normalizeWeights ws).map (fun cw => f cw.1 * cw.2)).sum
              / weightSum (normalizeWeights ws)) : ℚ) * brightness_boost)) ∧
        min 255 (pyint
          ((pyint (((normalizeWeights ws).map (fun cw => f cw.1 * cw.2)).sum
              / weightSum (normalizeWeights ws)) : ℚ) * brightness_boost)) ≤ 255 := by
      intro f hf
      have hb := blendSum_bounds f hf (normalizeWeights ws) hnn
      have h0 : (0:ℤ) ≤ pyint (((normalizeWeights ws).map (fun cw => f cw.1 * cw.2)).sum
          / weightSum (normalizeWeights ws)) :=
        pyint_nonneg (div_nonneg hb.1 (le_of_lt hsum))
      constructor
      · refine le_min (by norm_num) (pyint_nonneg ?_)
        have : (0:ℚ) ≤ ((pyint (((normalizeWeights ws).map (fun cw => f cw.1 * cw.2)).sum
            / weightSum (normalizeWeights ws)) : ℤ) : ℚ) := Int.cast_nonneg.mpr h0
        unfold brightness_boost
        nlinarith
      · exact min_le_left 255 _
    refine ⟨?_, ?_, ?_, ⟨halpha.1, le_trans halpha.2 hcap⟩⟩
    · exact hcolor (fun c => (chakra_colors c).1) (fun c => (chakra_colors_bounds c).1)
    · exact hcolor (fun c => (chakra_colors c).2.1) (fun c => (chakra_colors_bounds c).2.1)
    · exact hcolor (fun c => (chakra_colors c).2.2) (fun c => (chakra_colors_bounds c).2.2)
  · injection hp with hp
    subst hp
    norm_num

theorem optionMapList_length {α β : Type} {f : α → Option β} :
    ∀ {l : List α} {bs : List β}, optionMapList f l = some bs → bs.length = l.length := by
  intro l
  induction l with
  | nil =>
    intro bs h
    rw [optionMapList] at h
    injection h with h
    subst h
    rfl
  | cons a l ih =>
    intro bs h
    rw [optionMapList] at h
    cases hfa : f a with
    | none => rw [hfa] at h; simp at h
    | some b0 =>
      rw [hfa] at h
      cases hrest : optionMapList f l with
      | none => rw [hrest] at h; simp at h
      | some bs0 =>
        rw [hrest] at h
        injection h with h
        subst h
        simp [ih hrest]

theorem optionMapList_mem {α β : Type} {f : α → Option β} :
    ∀ {l : List α} {bs : List β}, optionMapList f l = some bs →
      ∀ b ∈ bs, ∃ a ∈ l, f a = some b := by
  intro l
  induction l with
  | nil =>
    intro bs h b hb
    rw [optionMapList] at h
    injection h with h
    subst h
    simp at hb
  | cons a l ih =>
    intro bs h b hb
    rw [optionMapList] at h
    cases hfa : f a with
    | none => rw [hfa] at h; simp at h
    | some b0 =>
      rw [hfa] at h
      cases hrest : optionMapList f l with
      | none => rw [hrest] at h; simp at h
      | some bs0 =>
        rw [hrest] at h
        injection h with h
        subst h
        rcases List.mem_cons.mp hb with rfl | hmem
        · exact ⟨a, List.mem_cons_self a l, hfa⟩
        · obtain ⟨a2, ha2, hfa2⟩ := ih hrest b hmem
          exact ⟨a2, List.mem_cons_of_mem a ha2, hfa2⟩

theorem optionMapList_const {α β : Type} {f : α → Option β} {b : β} :
    ∀ {l : List α}, (∀ a ∈ l, f a = some b) →
      optionMapList f l = some (l.map (fun _ => b)) := by
  intro l
  induction l with
  | nil => intro _; rfl
  | cons a l ih =>
    intro hall
    rw [optionMapList, hall a (List.mem_cons_self a l),
      ih (fun a2 ha2 => hall a2 (List.mem_cons_of_mem a ha2))]
    rfl

theorem body_dist_some (w h x y : ℕ) (hw : (w : ℚ) ≠ 0) (hh : (h : ℚ) ≠ 0) :
    ∃ bd, body_dist w h x y = some bd := by
  unfold body_dist pydiv
  rw [if_neg hh, if_neg hw]
  exact ⟨_, rfl⟩

theorem chakraWeightAt_zero {ev : Chakra → ℚ} (hev : ∀ c, ev c = 0)
    (w h : ℕ) (bd : ℚ) (y : ℕ) (c : Chakra) :
    chakraWeightAt ev w h bd y c = some none := by
  unfold chakraWeightAt
  rw [hev c]
  norm_num

theorem collectWeights_zero {ev : Chakra → ℚ} (hev : ∀ c, ev c = 0)
    (w h : ℕ) (bd : ℚ) (y : ℕ) :
    ∀ (cs : List Chakra) (acc : List (Chakra × ℚ)),
      collectWeights ev w h bd y cs acc = some acc := by
  intro cs
  induction cs with
  | nil => intro acc; rfl
  | cons c cs ih =>
    intro acc
    rw [collectWeights, chakraWeightAt_zero hev]
    exact ih acc

theorem pixelCompute_zero {ev : Chakra → ℚ} (hev : ∀ c, ev c = 0) (w h y x : ℕ)
    (hw : 0 < w) (hh : 0 < h) : pixelCompute ev w h y x = some (0, 0, 0, 0) := by
  obtain ⟨bd, hbd⟩ := body_dist_some w h x y
    (Nat.cast_ne_zero.mpr (Nat.pos_iff_ne_zero.mp hw))
    (Nat.cast_ne_zero.mpr (Nat.pos_iff_ne_zero.mp hh))
  unfold pixelCompute
  rw [hbd]
  simp only [Option.bind_eq_bind, Option.some_bind]
  rw [collectWeights_zero hev w h bd y chakraList []]
  simp only [Option.some_bind]
  rw [if_neg]
  · rfl
  · simp [normalizeWeights, weightSum]

/-! ## utils.py — calculate_chakra_color -/

/-- One channel of the middle-energy branch of `calculate_chakra_color`:
uniform brightness, then saturation boost for the dominant channel or a
slight reduction for the others, clamped at 255. -/
def midChannel (brightness saturation_boost saturation_factor max_channel channel : ℚ) : ℤ :=
  let brightness_value := pyint (channel * brightness)
  if channel = max_channel then
    min 255 (min 255 (pyint ((brightness_value : ℚ) * saturation_boost)))
  else
    min 255 (pyint ((brightness_value : ℚ) * saturation_factor))

/-- `calculate_chakra_color` from utils.py.  The float power
`energy ** 0.7` is not a rational operation; it is abstracted as the
argument `pow07` (any model of it; the bounds theorems only use that it
is nonnegative on nonnegative inputs, which the real power is). -/
def calculate_chakra_color (pow07 : ℚ → ℚ) (base_color : ℚ × ℚ × ℚ) (energy : ℚ) :
    ℤ × ℤ × ℤ :=
  let energy2 := max 0 (min 1 energy)
  let adjusted_energy := pow07 energy2
  if 8/10 ≤ adjusted_energy then
    let white_component := (adjusted_energy - 8/10) * 5
    let boost := 125/100 + (adjusted_energy - 8/10) * (25/10)
    (min 255 (pyint (base_color.1 * boost + white_component * 255)),
     min 255 (pyint (base_color.2.1 * boost + white_component * 255)),
     min 255 (pyint (base_color.2.2 * boost + white_component * 255)))
  else if 3/10 ≤ adjusted_energy then
    let factor := (adjusted_energy - 3/10) / (5/10)
    let brightness := 7/10 + factor * (55/100)
    let saturation_boost := 1 + factor * (3/10)
    let saturation_factor := 1 - factor * (2/10)
    let mc0 := max base_color.1 (max base_color.2.1 base_color.2.2)
    let max_channel := if mc0 = 0 then 1 else mc0
    (midChannel brightness saturation_boost saturation_factor max_channel base_color.1,
     midChannel brightness saturation_boost saturation_factor max_channel base_color.2.1,
     midChannel brightness saturation_boost saturation_factor max_channel base_color.2.2)
  else
    let brightness :=
      if adjusted_energy < 1/10 then 15/100 + (adjusted_energy / (1/10)) * (15/100)
      else 3/10 + ((adjusted_energy - 1/10) / (2/10)) * (4/10)
    (pyint (base_color.1 * brightness),
     pyint (base_color.2.1 * brightness),
     pyint (base_color.2.2 * brightness))

theorem midChannel_bounds {brightness saturation_boost saturation_factor max_channel channel : ℚ}
    (hb : 0 ≤ brightness) (hsb : 0 ≤ saturation_boost) (hsf : 0 ≤ saturation_factor)
    (hch : 0 ≤ channel) :
    0 ≤ midChannel brightness saturation_boost saturation_factor max_channel channel ∧
    midChannel brightness saturation_boost saturation_factor max_channel channel ≤ 255 := by
  unfold midChannel
  have hbv : (0 : ℤ) ≤ pyint (channel * brightness) := pyint_nonneg (mul_nonneg hch hb)
  have hbvq : (0 : ℚ) ≤ ((pyint (channel * brightness) : ℤ) : ℚ) := Int.cast_nonneg.mpr hbv
  split_ifs
  · exact ⟨le_min (by norm_num) (le_min (by norm_num) (pyint_nonneg (mul_nonneg hbvq hsb))),
      min_le_left _ _⟩
  · exact ⟨le_min (by norm_num) (pyint_nonneg (mul_nonneg hbvq hsf)), min_le_left _ _⟩

theorem calculate_chakra_color_bounds (pow07 : ℚ → ℚ)
    (hpow : ∀ q, 0 ≤ q → 0 ≤ pow07 q) (base_color : ℚ × ℚ × ℚ)
    (h1 : 0 ≤ base_color.1 ∧ base_color.1 ≤ 255)
    (h2 : 0 ≤ base_color.2.1 ∧ base_color.2.1 ≤ 255)
    (h3 : 0 ≤ base_color.2.2 ∧ base_color.2.2 ≤ 255) (energy : ℚ) :
    (0 ≤ (calculate_chakra_color pow07 base_color energy).1 ∧
      (calculate_chakra_color pow07 base_color energy).1 ≤ 255) ∧
    (0 ≤ (calculate_chakra_color pow07 base_color energy).2.1 ∧
      (calculate_chakra_color pow07 base_color energy).2.1 ≤ 255) ∧
    (0 ≤ (calculate_chakra_color pow07 base_color energy).2.2 ∧
      (calculate_chakra_color pow07 base_color energy).2.2 ≤ 255) := by
  have hae : 0 ≤ pow07 (max 0 (min 1 energy)) := hpow _ (le_max_left 0 _)
  unfold calculate_chakra_color
  dsimp only
  by_cases hhigh : (8/10 : ℚ) ≤ pow07 (max 0 (min 1 energy))
  · rw [if_pos hhigh]
    have hbo : (0 : ℚ) ≤ 125/100 + (pow07 (max 0 (min 1 energy)) - 8/10) * (25/10) := by
      nlinarith
    refine ⟨⟨?_, min_le_left _ _⟩, ⟨?_, min_le_left _ _⟩, ⟨?_, min_le_left _ _⟩⟩
    · exact le_min (by norm_num) (pyint_nonneg (by nlinarith [h1.1]))
    · exact le_min (by norm_num) (pyint_nonneg (by nlinarith [h2.1]))
    · exact le_min (by norm_num) (pyint_nonneg (by nlinarith [h3.1]))
  · rw [if_neg hhigh]
    push_neg at hhigh
    by_cases hmid : (3/10 : ℚ) ≤ pow07 (max 0 (min 1 energy))
    · rw [if_pos hmid]
      have hf0 : (0 : ℚ) ≤ (pow07 (max 0 (min 1 energy)) - 3/10) / (5/10) :=
        div_nonneg (by linarith) (by norm_num)
      have hf1 : (pow07 (max 0 (min 1 energy)) - 3/10) / (5/10) < 1 := by
        rw [div_lt_one (by norm_num)]
        linarith
      have hbr : (0 : ℚ) ≤ 7/10 + ((pow07 (max 0 (min 1 energy)) - 3/10) / (5/10)) * (55/100) := by
        nlinarith
      have hsb : (0 : ℚ) ≤ 1 + ((pow07 (max 0 (min 1 energy)) - 3/10) / (5/10)) * (3/10) := by
        nlinarith
      have hsf : (0 : ℚ) ≤ 1 - ((pow07 (max 0 (min 1 energy)) - 3/10) / (5/10)) * (2/10) := by
        nlinarith
      exact ⟨midChannel_bounds hbr hsb hsf h1.1, midChannel_bounds hbr hsb hsf h2.1,
        midChannel_bounds hbr hsb hsf h3.1⟩
    · rw [if_neg hmid]
      push_neg at hmid
      by_cases hlow : pow07 (max 0 (min 1 energy)) < 1/10
      · rw [if_pos hlow]
        have hb0 : (0 : ℚ) ≤ 15/100 + (pow07 (max 0 (min 1 energy)) / (1/10)) * (15/100) := by
          have h4 : (0 : ℚ) ≤ pow07 (max 0 (min 1 energy)) / (1/10) :=
            div_nonneg hae (by norm_num)
          nlinarith
        have hb1 : 15/100 + (pow07 (max 0 (min 1 energy)) / (1/10)) * (15/100) ≤ 1 := by
          have h4 : pow07 (max 0 (min 1 energy)) / (1/10) < 1 := by
            rw [div_lt_one (by norm_num)]
            linarith
          nlinarith
        refine ⟨⟨?_, ?_⟩, ⟨?_, ?_⟩, ⟨?_, ?_⟩⟩
        · exact pyint_nonneg (mul_nonneg h1.1 hb0)
        · exact pyint_le_of_le (mul_nonneg h1.1 hb0)
            (by nlinarith [mul_le_mul h1.2 hb1 hb0 (by norm_num : (0:ℚ) ≤ 255)])
        · exact pyint_nonneg (mul_nonneg h2.1 hb0)
        · exact pyint_le_of_le (mul_nonneg h2.1 hb0)
            (by nlinarith [mul_le_mul h2.2 hb1 hb0 (by norm_num : (0:ℚ) ≤ 255)])
        · exact pyint_nonneg (mul_nonneg h3.1 hb0)
        · exact pyint_le_of_le (mul_nonneg h3.1 hb0)
            (by nlinarith [mul_le_mul h3.2 hb1 hb0 (by norm_num : (0:ℚ) ≤ 255)])
      · rw [if_neg hlow]
        push_neg at hlow
        have hb0 : (0 : ℚ)
            ≤ 3/10 + ((pow07 (max 0 (min 1 energy)) - 1/10) / (2/10)) * (4/10) := by
          have h4 : (0 : ℚ) ≤ (pow07 (max 0 (min 1 energy)) - 1/10) / (2/10) :=
            div_nonneg (by linarith) (by norm_num)
          nlinarith
        have hb1 : 3/10 + ((pow07 (max 0 (min 1 energy)) - 1/10) / (2/10)) * (4/10) ≤ 1 := by
          have h4 : (pow07 (max 0 (min 1 energy)) - 1/10) / (2/10) < 1 := by
            rw [div_lt_one (by norm_num)]
            linarith
          nlinarith
        refine ⟨⟨?_, ?_⟩, ⟨?_, ?_⟩, ⟨?_, ?_⟩⟩
        · exact pyint_nonneg (mul_nonneg h1.1 hb0)
        · exact pyint_le_of_le (mul_nonneg h1.1 hb0)
            (by nlinarith [mul_le_mul h1.2 hb1 hb0 (by norm_num : (0:ℚ) ≤ 255)])
        · exact pyint_nonneg (mul_nonneg h2.1 hb0)
        · exact pyint_le_of_le (mul_nonneg h2.1 hb0)
            (by nlinarith [mul_le_mul h2.2 hb1 hb0 (by norm_num : (0:ℚ) ≤ 255)])
        · exact pyint_nonneg (mul_nonneg h3.1 hb0)
        · exact pyint_le_of_le (mul_nonneg h3.1 hb0)
            (by nlinarith [mul_le_mul h3.2 hb1 hb0 (by norm_num : (0:ℚ) ≤ 255)])

/-- C3: for every energy profile whose seven values lie in [0,100],
each RGB color channel written by create_aura_only lies in [0,255];
likewise calculate_chakra_color, for any base color with channels in
[0,255] and any energy input (and any model pow07 of the float power
x ** 0.7 that is nonnegative on nonnegative inputs), returns a color
whose channels lie in [0,255]. -/
theorem color_channels_in_range (ev : Chakra → ℚ)
    (hev : ∀ c, 0 ≤ ev c ∧ ev c ≤ 100) (width height : ℕ)
    (img : List (List (ℤ × ℤ × ℤ × ℤ)))
    (himg : create_aura_only ev width height = some img) :
    (∀ row ∈ img, ∀ p ∈ row,
      (0 ≤ p.1 ∧ p.1 ≤ 255) ∧ (0 ≤ p.2.1 ∧ p.2.1 ≤ 255) ∧
      (0 ≤ p.2.2.1 ∧ p.2.2.1 ≤ 255)) ∧
    (∀ (pow07 : ℚ → ℚ), (∀ q, 0 ≤ q → 0 ≤ pow07 q) →
      ∀ base_color : ℚ × ℚ × ℚ,
        (0 ≤ base_color.1 ∧ base_color.1 ≤ 255) →
        (0 ≤ base_color.2.1 ∧ base_color.2.1 ≤ 255) →
        (0 ≤ base_color.2.2 ∧ base_color.2.2 ≤ 255) →
        ∀ energy : ℚ,
          (0 ≤ (calculate_chakra_color pow07 base_color energy).1 ∧
            (calculate_chakra_color pow07 base_color energy).1 ≤ 255) ∧
          (0 ≤ (calculate_chakra_color pow07 base_color energy).2.1 ∧
            (calculate_chakra_color pow07 base_color energy).2.1 ≤ 255) ∧
          (0 ≤ (calculate_chakra_color pow07 base_color energy).2.2 ∧
            (calculate_chakra_color pow07 base_color energy).2.2 ≤ 255)) := by
  constructor
  · intro row hrow p hp
    unfold create_aura_only at himg
    obtain ⟨y, -, hrowy⟩ := optionMapList_mem himg row hrow
    obtain ⟨x, -, hpx⟩ := optionMapList_mem hrowy p hp
    obtain ⟨b1, b2, b3, -⟩ := pixelCompute_bounds hpx
    exact ⟨b1, b2, b3⟩
  · intro pow07 hpow base_color h1 h2 h3 energy
    exact calculate_chakra_color_bounds pow07 hpow base_color h1 h2 h3 energy

theorem color_channels_in_range_attains :
    (0 ≤ (calculate_chakra_color (fun q => q) (255, 0, 0) (1/2)).1 ∧
      (calculate_chakra_color (fun q => q) (255, 0, 0) (1/2)).1 ≤ 255) ∧
    (0 ≤ (calculate_chakra_color (fun q => q) (255, 0, 0) (1/2)).2.1 ∧
      (calculate_chakra_color (fun q => q) (255, 0, 0) (1/2)).2.1 ≤ 255) ∧
    (0 ≤ (calculate_chakra_color (fun q => q) (255, 0, 0) (1/2)).2.2 ∧
      (calculate_chakra_color (fun q => q) (255, 0, 0) (1/2)).2.2 ≤ 255) :=
  (color_channels_in_range (fun _ => 0) (by intro c; norm_num) 2 2
      [[(0, 0, 0, 0), (0, 0, 0, 0)], [(0, 0, 0, 0), (0, 0, 0, 0)]]
      (by with_unfolding_all decide)).2
    (fun q => q) (fun _ hq => hq) (255, 0, 0) (by norm_num) (by norm_num) (by norm_num)
    (1/2)

/-- C4: for every energy profile with values in [0,100] every written
alpha lies in [0,255]; inside the silhouette (distance ≤ 0) the alpha
equals int(255 * 0.7) = 178; outside it is a non-increasing function of
the distance, floored at 0 and never exceeding the 70% opacity cap. -/
theorem alpha_in_range_and_antitone (ev : Chakra → ℚ)
    (hev : ∀ c, 0 ≤ ev c ∧ ev c ≤ 100) (width height : ℕ)
    (img : List (List (ℤ × ℤ × ℤ × ℤ)))
    (himg : create_aura_only ev width height = some img) :
    (∀ row ∈ img, ∀ p ∈ row, 0 ≤ p.2.2.2 ∧ p.2.2.2 ≤ 255) ∧
    ((178 : ℤ) = pyint (255 * (70/100))) ∧
    (∀ (bd : ℚ) (radii : List ℚ) (fb : ℚ), bd ≤ 0 →
      alphaCompute bd radii fb = some 178) ∧
    (∀ (radii : List ℚ) (fb : ℚ), 0 ≤ fb → (∀ r ∈ radii, 0 < r) →
      ∀ (d1 d2 : ℚ) (a1 a2 : ℤ), 0 ≤ d1 → d1 ≤ d2 →
        alphaCompute d1 radii fb = some a1 →
        alphaCompute d2 radii fb = some a2 →
        a2 ≤ a1 ∧ 0 ≤ a2 ∧ a1 ≤ 178) := by
  have h178 : (178 : ℤ) = pyint (255 * (70/100)) := by with_unfolding_all decide
  refine ⟨?_, h178, ?_, ?_⟩
  · intro row hrow p hp
    unfold create_aura_only at himg
    obtain ⟨y, -, hrowy⟩ := optionMapList_mem himg row hrow
    obtain ⟨x, -, hpx⟩ := optionMapList_mem hrowy p hp
    exact (pixelCompute_bounds hpx).2.2.2
  · intro bd radii fb hbd
    rw [alphaCompute_inside bd radii fb hbd, ← h178]
  · intro radii fb hfb hr d1 d2 a1 a2 hd1 hd12 hha1 hha2
    have hb2 := alphaCompute_bounds (le_trans hd1 hd12) hfb hr hha2
    have hb1 := alphaCompute_bounds hd1 hfb hr hha1
    rw [← h178] at hb1
    exact ⟨alphaCompute_antitone hfb hr hd1 hd12 hha1 hha2, hb2.1, hb1.2⟩

theorem alpha_in_range_and_antitone_attains :
    alphaCompute (-1) [] 0 = some 178 :=
  (alpha_in_range_and_antitone (fun _ => 0) (by intro c; norm_num) 2 2
      [[(0, 0, 0, 0), (0, 0, 0, 0)], [(0, 0, 0, 0), (0, 0, 0, 0)]]
      (by with_unfolding_all decide)).2.2.1
    (-1) [] 0 (by norm_num)

/-- C5: if all seven chakra energies are 0, every pixel of the returned
buffer is (0,0,0,0): the output is fully transparent. -/
theorem all_zero_energy_transparent (ev : Chakra → ℚ) (hev : ∀ c, ev c = 0)
    (width height : ℕ) :
    ∃ img, create_aura_only ev width height = some img ∧
      ∀ row ∈ img, ∀ p ∈ row, p = ((0 : ℤ), (0 : ℤ), (0 : ℤ), (0 : ℤ)) := by
  refine ⟨(List.range height).map
      (fun _ => (List.range width).map (fun _ => (0, 0, 0, 0))), ?_, ?_⟩
  · unfold create_aura_only
    apply optionMapList_const
    intro y hy
    have hh : 0 < height := lt_of_le_of_lt (Nat.zero_le y) (List.mem_range.mp hy)
    apply optionMapList_const
    intro x hx
    have hw : 0 < width := lt_of_le_of_lt (Nat.zero_le x) (List.mem_range.mp hx)
    exact pixelCompute_zero hev width height y x hw hh
  · intro row hrow p hp
    obtain ⟨y, -, rfl⟩ := List.mem_map.mp hrow
    obtain ⟨x, -, rfl⟩ := List.mem_map.mp hp
    rfl

theorem all_zero_energy_transparent_attains :
    ∃ img, create_aura_only (fun _ => 0) 2 3 = some img ∧
      ∀ row ∈ img, ∀ p ∈ row, p = ((0 : ℤ), (0 : ℤ), (0 : ℤ), (0 : ℤ)) :=
  all_zero_energy_transparent (fun _ => 0) (fun _ => rfl) 2 3

/-- C6 fails as stated: at width 1 (so the capped base radius is 0)
with a positive energy, the per-pixel weight computation divides the
distance by a zero chakra radius and create_aura_only raises
ZeroDivisionError instead of returning an array. -/
theorem create_aura_only_raises_on_width_one :
    create_aura_only (fun _ => 100) 1 3 = none := by
  with_unfolding_all decide

/-- C6 (amended): whenever create_aura_only returns an array rather
than raising, the array has exactly the requested height × width shape
(each entry a 4-component RGBA pixel). -/
theorem create_aura_only_shape (ev : Chakra → ℚ) (width height : ℕ)
    (img : List (List (ℤ × ℤ × ℤ × ℤ)))
    (himg : create_aura_only ev width height = some img) :
    img.length = height ∧ ∀ row ∈ img, row.length = width := by
  unfold create_aura_only at himg
  constructor
  · rw [optionMapList_length himg, List.length_range]
  · intro row hrow
    obtain ⟨y, -, hrowy⟩ := optionMapList_mem himg row hrow
    rw [optionMapList_length hrowy, List.length_range]

theorem create_aura_only_shape_attains :
    create_aura_only (fun _ => 0) 2 2
      = some [[(0, 0, 0, 0), (0, 0, 0, 0)], [(0, 0, 0, 0), (0, 0, 0, 0)]] ∧
    ([[((0 : ℤ), (0 : ℤ), (0 : ℤ), (0 : ℤ)), (0, 0, 0, 0)],
      [(0, 0, 0, 0), (0, 0, 0, 0)]] : List (List (ℤ × ℤ × ℤ × ℤ))).length = 2 :=
  have hc : create_aura_only (fun _ => 0) 2 2
      = some [[(0, 0, 0, 0), (0, 0, 0, 0)], [(0, 0, 0, 0), (0, 0, 0, 0)]] := by
    with_unfolding_all decide
  ⟨hc, (create_aura_only_shape (fun _ => 0) 2 2 _ hc).1⟩

/-- C8: whenever the accumulated influence weight at a pixel is
positive, the per-chakra weights after the normalization step of
create_aura_only sum exactly to 1 (exact rational model of the float
arithmetic). -/
theorem normalized_weights_sum_to_one (ws : List (Chakra × ℚ))
    (h : 0 < weightSum ws) : weightSum (normalizeWeights ws) = 1 := by
  unfold normalizeWeights
  rw [if_pos h]
  show (List.map Prod.snd (ws.map (fun cw => (cw.1, cw.2 / weightSum ws)))).sum = 1
  rw [List.map_map]
  have hfun : (Prod.snd ∘ fun cw : Chakra × ℚ => (cw.1, cw.2 / weightSum ws))
      = fun cw : Chakra × ℚ => cw.2 * (weightSum ws)⁻¹ := by
    funext cw
    simp [div_eq_mul_inv]
  rw [hfun, List.sum_map_mul_right]
  show weightSum ws * (weightSum ws)⁻¹ = 1
  exact mul_inv_cancel₀ (ne_of_gt h)

theorem normalized_weights_sum_to_one_attains :
    0 < weightSum [(Chakra.Root, 2)] ∧
    weightSum (normalizeWeights [(Chakra.Root, 2)]) = 1 :=
  ⟨by with_unfolding_all decide,
   normalized_weights_sum_to_one _ (by with_unfolding_all decide)⟩

/-! ## aura_photo.py — overlay_aura_on_photo -/

/-- A NumPy image as nested lists: rows × columns × channels. -/
abbrev NpImage := List (List (List ℤ))

/-- `img.shape[0]`. -/
def shape0 (img : NpImage) : ℕ := img.length

/-- `img.shape[1]` (NumPy arrays are rectangular, so the first row is
representative). -/
def shape1 (img : NpImage) : ℕ := (img.headD []).length

/-- `img.shape[2]`. -/
def shape2 (img : NpImage) : ℕ := ((img.headD []).headD []).length

/-- Model of `cv2.resize(aura, (w, h))`: nearest-neighbour sampling;
raises when the source or the target is empty. -/
def resizeModel (img : NpImage) (w h : ℕ) : Option NpImage :=
  if shape0 img = 0 ∨ shape1 img = 0 ∨ w = 0 ∨ h = 0 then none
  else some ((List.range h).map (fun y =>
    (List.range w).map (fun x =>
      (img.getD (y * shape0 img / h) []).getD (x * shape1 img / w) [])))

/-- Model of `cv2.cvtColor(photo, COLOR_RGB2RGBA)`: append an opaque
alpha channel to every pixel. -/
def addAlphaModel (img : NpImage) : NpImage :=
  img.map (fun row => row.map (fun p => p ++ [255]))

/-- One pixel of the alpha-blending loop: channels 0..2 blended with
the aura's normalized alpha, the remaining channels kept, the result
cast to uint8. -/
def blendPixel (p a : List ℤ) : List ℤ :=
  let alpha : ℚ := ((a.getD 3 0 : ℤ) : ℚ) / 255
  p.mapIdx (fun c (v : ℤ) =>
    if c < 3 then (pyint ((1 - alpha) * (v : ℚ) + alpha * ((a.getD c 0 : ℤ) : ℚ))).emod 256
    else v)

/-- The alpha-blending step of `overlay_aura_on_photo`: raises
(IndexError / broadcast error) when the aura lacks an alpha channel,
the photo has fewer than 3 channels, or the 2-D shapes disagree. -/
def blendModel (photo aura : NpImage) : Option NpImage :=
  if shape2 aura < 4 ∨ shape2 photo < 3 ∨ shape0 photo ≠ shape0 aura ∨
      shape1 photo ≠ shape1 aura then none
  else some (List.zipWith (fun prow arow => List.zipWith blendPixel prow arow) photo aura)

/-- The body of the `try` block of `overlay_aura_on_photo`: resize the
aura when the 2-D shapes disagree, add an alpha channel to a 3-channel
photo, then alpha-blend. -/
def overlayBody (photo aura : NpImage) : Option NpImage := do
  let aura2 ← if shape0 photo ≠ shape0 aura ∨ shape1 photo ≠ shape1 aura
              then resizeModel aura (shape1 photo) (shape0 photo)
              else some aura
  let photo_rgba := if shape2 photo = 3 then addAlphaModel photo else photo
  blendModel photo_rgba aura2

/-- `overlay_aura_on_photo`: any exception in the body is caught, 
logged, and the original photo argument is returned unchanged. -/
def overlay_aura_on_photo (photo aura : NpImage) : NpImage :=
  match overlayBody photo aura with
  | some result => result
  | none => photo

/-- C7: if any exception is raised during the body of
overlay_aura_on_photo (resize, alpha-channel conversion, or blending),
the function returns the original photo argument unchanged, for every
photo and aura input. -/
theorem overlay_returns_photo_on_exception (photo aura : NpImage)
    (h : overlayBody photo aura = none) :
    overlay_aura_on_photo photo aura = photo := by
  unfold overlay_aura_on_photo
  rw [h]

theorem overlay_returns_photo_on_exception_attains :
    overlayBody [[[0, 0]]] [[[0, 0, 0, 0]]] = none ∧
    overlay_aura_on_photo [[[0, 0]]] [[[0, 0, 0, 0]]] = [[[0, 0]]] :=
  ⟨by with_unfolding_all decide,
   overlay_returns_photo_on_exception _ _ (by with_unfolding_all decide)⟩

/-! ## grv_camera.py — capture_finger, emulation mode -/

/-- Hands, as in the `HandType` enum. -/
inductive HandType
  | LEFT | RIGHT
deriving DecidableEq, Repr

/-- Fingers, as in the `FingerType` enum. -/
inductive FingerType
  | THUMB | INDEX | MIDDLE | RING | PINKY
deriving DecidableEq, Repr

/-- The enum member name, as Python's `.name` returns it. -/
def HandType.name : HandType → String
  | .LEFT => "LEFT"
  | .RIGHT => "RIGHT"

/-- The enum member name, as Python's `.name` returns it. -/
def FingerType.name : FingerType → String
  | .THUMB => "THUMB"
  | .INDEX => "INDEX"
  | .MIDDLE => "MIDDLE"
  | .RING => "RING"
  | .PINKY => "PINKY"

/-- Modelled from the spec: NumPy's seeded global generator
(`np.random.seed` / `np.random.randint` / `np.random.uniform`) is a
deterministic pseudo-random stream that is a pure function of the seed.
The Mersenne-Twister internals are replaced by a linear-congruential
step with the same interface; the theorems use only determinism and
shape preservation. -/
def rngNext (state : ℕ) : ℕ × ℕ :=
  let n := (1103515245 * state + 12345) % 2147483648
  (n, n)

/-- `np.random.randint(lo, hi)`: a draw in [lo, hi), advancing the
stream. -/
def randint (lo hi : ℤ) (state : ℕ) : ℤ × ℕ :=
  let p := rngNext state
  (lo + (p.1 : ℤ) % (hi - lo), p.2)

/-- Modelled from the spec: `np.random.uniform(0, 2 * np.pi)` with the
angle kept as a rational in [0, 2π). -/
def uniformAngle (state : ℕ) : ℚ × ℕ :=
  let p := rngNext state
  (((p.1 % 1000 : ℕ) : ℚ) / 1000 * (628318 / 100000), p.2)

/-- Modelled from the spec: rational stand-in for the float `np.cos`
used to place the turbulence spots (truncated Taylor polynomial; only
determinism and the later bounds check matter). -/
def cosQ (t : ℚ) : ℚ := 1 - t ^ 2 / 2 + t ^ 4 / 24 - t ^ 6 / 720

/-- Modelled from the spec: rational stand-in for the float
`np.sin`. -/
def sinQ (t : ℚ) : ℚ := t - t ^ 3 / 6 + t ^ 5 / 120

/-- A BGR image as nested lists (OpenCV layout): each pixel is a
3-channel triple. -/
abbrev GrvImage := List (List (ℤ × ℤ × ℤ))

/-- `np.zeros((height, width, 3))`. -/
def zerosImage (height width : ℕ) : GrvImage :=
  (List.range height).map (fun _ => (List.range width).map (fun _ => (0, 0, 0)))

/-- `cv2.circle(img, (cx, cy), radius, color, -1)`: fill every pixel
within `radius` of the center with `color`. -/
def drawCircle (img : GrvImage) (cx cy radius : ℤ) (color : ℤ × ℤ × ℤ) : GrvImage :=
  img.mapIdx (fun y row => row.mapIdx (fun x p =>
    if ((x : ℤ) - cx) ^ 2 + ((y : ℤ) - cy) ^ 2 ≤ radius ^ 2 then color else p))

/-- Pixel access with out-of-range reads giving black (used only by the
blur model). -/
def pixelAt (img : GrvImage) (y x : ℤ) : ℤ × ℤ × ℤ :=
  if 0 ≤ y ∧ 0 ≤ x then (img.getD y.toNat []).getD x.toNat (0, 0, 0) else (0, 0, 0)

/-- Modelled from the spec: `cv2.GaussianBlur(image, (15, 15), 0)` is a
shape-preserving smoothing filter; modelled as a 3×3 integer box
average (only determinism and shape preservation matter). -/
def gaussianBlurModel (img : GrvImage) : GrvImage :=
  img.mapIdx (fun y row => row.mapIdx (fun x _ =>
    let s := [(-1 : ℤ), 0, 1].foldl (fun acc dy =>
      [(-1 : ℤ), 0, 1].foldl (fun acc2 dx =>
        let p := pixelAt img ((y : ℤ) + dy) ((x : ℤ) + dx)
        (acc2.1 + p.1, acc2.2.1 + p.2.1, acc2.2.2 + p.2.2)) acc) ((0 : ℤ), (0 : ℤ), (0 : ℤ))
    (s.1 / 9, s.2.1 / 9, s.2.2 / 9)))

/-- The 40-iteration intensity-variation loop of the emulated capture:
draw a random point; when it falls inside the main circle, draw a small
circle of random radius and intensity there. -/
def spotsLoop (cx cy radius : ℤ) : ℕ → GrvImage × ℕ → GrvImage × ℕ
  | 0, s => s
  | Nat.succ n, s =>
    let r1 := randint (cx - radius) (cx + radius) s.2
    let r2 := randint (cy - radius) (cy + radius) r1.2
    if (r1.1 - cx) ^ 2 + (r2.1 - cy) ^ 2 ≤ radius ^ 2 then
      let r3 := randint 5 15 r2.2
      let r4 := randint 100 255 r3.2
      spotsLoop cx cy radius n (drawCircle s.1 r1.1 r2.1 r3.1 (0, 0, r4.1), r4.2)
    else
      spotsLoop cx cy radius n (s.1, r2.2)

/-- The 20-iteration turbulence loop: place small circles at a random
angle and distance just outside the main circle, bounds-checked against
the image size. -/
def turbLoop (width height : ℕ) (cx cy radius : ℤ) : ℕ → GrvImage × ℕ → GrvImage × ℕ
  | 0, s => s
  | Nat.succ n, s =>
    let a1 := uniformAngle s.2
    let r1 := randint 10 40 a1.2
    let distance : ℚ := (radius : ℚ) + (r1.1 : ℚ)
    let x := pyint ((cx : ℚ) + distance * cosQ a1.1)
    let y := pyint ((cy : ℚ) + distance * sinQ a1.1)
    if 0 ≤ x ∧ x < (width : ℤ) ∧ 0 ≤ y ∧ y < (height : ℤ) then
      let r2 := randint 3 8 r1.2
      let r3 := randint 50 200 r2.2
      turbLoop width height cx cy radius n (drawCircle s.1 x y r2.1 (0, 0, r3.1), r3.2)
    else
      turbLoop width height cx cy radius n (s.1, r1.2)

/-- The emulation branch of `GRVCamera.capture_finger` as a function of
the derived seed: a black 400×400 canvas, a filled red main circle of
random radius (BGR (0,0,255)), 40 intensity spots, 20 turbulence spots,
then the blur. -/
def genEmulImage (seed : ℕ) : GrvImage :=
  let image0 := zerosImage 400 400
  let cx : ℤ := (400 : ℤ) / 2
  let cy : ℤ := (400 : ℤ) / 2
  let r1 := randint 50 120 seed
  let image1 := drawCircle image0 cx cy r1.1 (0, 0, 255)
  let p2 := spotsLoop cx cy r1.1 40 (image1, r1.2)
  let p3 := turbLoop 400 400 cx cy r1.1 20 p2
  gaussianBlurModel p3.1

/-- `GRVCamera.capture_finger` in emulation mode: the produced image is
a pure function of `seed = hash(f"{hand.name}_{finger.name}") % 1000`.
`pythonHash` abstracts Python's per-process string hash (fixed within
one process run). -/
def capture_finger_emul (pythonHash : String → ℤ) (hand : HandType)
    (finger : FingerType) : GrvImage :=
  genEmulImage ((pythonHash (hand.name ++ "_" ++ finger.name)).emod 1000).toNat

/-- Shape predicate: `height` rows of `width` pixels each. -/
def ImageShape (img : GrvImage) (height width : ℕ) : Prop :=
  img.length = height ∧ ∀ row ∈ img, row.length = width

theorem zerosImage_shape (height width : ℕ) : ImageShape (zerosImage height width) height width := by
  constructor
  · simp [zerosImage]
  · intro row hrow
    obtain ⟨y, -, rfl⟩ := List.mem_map.mp hrow
    simp

theorem drawCircle_shape {img : GrvImage} {height width : ℕ} (hs : ImageShape img height width)
    (cx cy radius : ℤ) (color : ℤ × ℤ × ℤ) :
    ImageShape (drawCircle img cx cy radius color) height width := by
  constructor
  · rw [drawCircle, List.length_mapIdx]
    exact hs.1
  · intro row hrow
    obtain ⟨y, hy, rfl⟩ := List.exists_of_mem_mapIdx hrow
    rw [List.length_mapIdx]
    exact hs.2 _ (List.getElem_mem hy)

theorem gaussianBlurModel_shape {img : GrvImage} {height width : ℕ}
    (hs : ImageShape img height width) :
    ImageShape (gaussianBlurModel img) height width := by
  constructor
  · rw [gaussianBlurModel, List.length_mapIdx]
    exact hs.1
  · intro row hrow
    obtain ⟨y, hy, rfl⟩ := List.exists_of_mem_mapIdx hrow
    rw [List.length_mapIdx]
    exact hs.2 _ (List.getElem_mem hy)

theorem spotsLoop_shape (cx cy radius : ℤ) :
    ∀ (n : ℕ) (s : GrvImage × ℕ) {height width : ℕ}, ImageShape s.1 height width →
      ImageShape (spotsLoop cx cy radius n s).1 height width := by
  intro n
  induction n with
  | zero => intro s height width hs; exact hs
  | succ n ih =>
    intro s height width hs
    rw [spotsLoop]
    dsimp only
    split_ifs
    · exact ih _ (drawCircle_shape hs _ _ _ _)
    · exact ih _ hs

theorem turbLoop_shape (width height : ℕ) (cx cy radius : ℤ) :
    ∀ (n : ℕ) (s : GrvImage × ℕ) {h2 w2 : ℕ}, ImageShape s.1 h2 w2 →
      ImageShape (turbLoop width height cx cy radius n s).1 h2 w2 := by
  intro n
  induction n with
  | zero => intro s h2 w2 hs; exact hs
  | succ n ih =>
    intro s h2 w2 hs
    rw [turbLoop]
    dsimp only
    split_ifs
    · exact ih _ (drawCircle_shape hs _ _ _ _)
    · exact ih _ hs

set_option maxRecDepth 4000 in
theorem genEmulImage_shape (seed : ℕ) : ImageShape (genEmulImage seed) 400 400 := by
  unfold genEmulImage
  apply gaussianBlurModel_shape
  apply turbLoop_shape
  apply spotsLoop_shape
  apply drawCircle_shape
  exact zerosImage_shape 400 400

/-- C9: in emulation mode, capture_finger always produces a 400×400
image of 3-channel (BGR) pixels, and the generation is deterministic
per identifier pair: the image is a pure function of
seed = hash(hand_finger) % 1000, so two calls within one process with
the same (or hash-equal) hand and finger arguments return
pixel-identical images. -/
theorem capture_finger_emul_shape_deterministic (pythonHash : String → ℤ)
    (hand hand2 : HandType) (finger finger2 : FingerType)
    (hseed : (pythonHash (hand.name ++ "_" ++ finger.name)).emod 1000
           = (pythonHash (hand2.name ++ "_" ++ finger2.name)).emod 1000) :
    (capture_finger_emul pythonHash hand finger).length = 400 ∧
    (∀ row ∈ capture_finger_emul pythonHash hand finger, row.length = 400) ∧
    capture_finger_emul pythonHash hand finger
      = capture_finger_emul pythonHash hand2 finger2 := by
  have hs := genEmulImage_shape
    ((pythonHash (hand.name ++ "_" ++ finger.name)).emod 1000).toNat
  refine ⟨hs.1, hs.2, ?_⟩
  unfold capture_finger_emul
  rw [hseed]

theorem capture_finger_emul_shape_deterministic_attains :
    capture_finger_emul (fun _ => 7) HandType.LEFT FingerType.THUMB
      = capture_finger_emul (fun _ => 7) HandType.RIGHT FingerType.INDEX :=
  (capture_finger_emul_shape_deterministic (fun _ => 7)
    HandType.LEFT HandType.RIGHT FingerType.THUMB FingerType.INDEX rfl).2.2
